import Mathlib

/-!
Verification of the concave hull library (`src/concaveHull.js`).

The JavaScript source is shallowly embedded over exact rationals:

* a JS point array `[x, y]` becomes `Point := ℚ × ℚ`; the JS `===`
  comparison on both coordinates becomes decidable equality on `ℚ`;
* JS numbers are modelled as exact rationals.  Two real-valued quantities
  appear in the source: `Math.sqrt` inside `distance`, and
  `Math.atan2`/`Math.PI` inside `Angle`.  Both are used by the algorithm
  only through order comparisons, so the embedding replaces them by
  order-isomorphic rational surrogates (see `distanceSq` and
  `AngleValKey` below); the real-valued `Angle` itself is embedded over
  `ℝ` separately for the claims about it;
* the JS array sorts use comparators that never return 0.  For the
  distance sort the comparator reports a tie as "keep `a` first", which a
  stable sort realises; for the angle sort the tie behaviour of
  `Array.prototype.sort` with an inconsistent comparator is
  implementation-defined, and the embedding fixes the stable order
  (ties keep the original relative order), which is the documented
  modelling choice throughout;
* the recursion of `calculate` (retry with `k+1`) is not structurally
  decreasing and is in fact not total, so the embedding uses explicit
  fuel: `calcFuel fuel points k` returns `none` when fuel runs out,
  `some none` for the JS `null` failure signal, and `some (some hull)`
  for a computed hull.  The inner while-loop receives the local fuel
  `dataset.length + 3`, which is proved sufficient
  (`hullLoop_fuel_sufficient`), so the fuel never changes the meaning of
  a `some` result.
-/

namespace ConcaveHull

/-- A 2D point, the JS two-element array `[x, y]` with exact coordinates. -/
abbrev Point : Type := ℚ × ℚ

/-- Componentwise equality of two points, the JS `pointEquals` which
compares `a[0] === b[0] && a[1] === b[1]`. -/
def pointEquals (a b : Point) : Bool :=
  decide (a.1 = b.1 ∧ a.2 = b.2)

/-- Squared Euclidean distance between two points.  The source computes
`Math.sqrt` of exactly this value (`distance`), and the algorithm only
ever compares distances when sorting neighbour candidates; since the
square root is strictly monotone, comparing squared distances gives
exactly the same order, ties included. -/
def distanceSq (p1 p2 : Point) : ℚ :=
  (p2.1 - p1.1) ^ 2 + (p2.2 - p1.2) ^ 2

/-- Accumulator loop of `multiDimensionalUnique`: scan the input left to
right, appending each element not already collected (the JS loop keyed
on `JSON.stringify`, which for numeric pairs is value equality). -/
def mduGo : List Point → List Point → List Point
  | [], uniques => uniques
  | x :: xs, uniques =>
      if x ∈ uniques then mduGo xs uniques else mduGo xs (uniques ++ [x])

/-- Remove duplicate points, keeping first occurrences in order
(the JS `multiDimensionalUnique`). -/
def multiDimensionalUnique (arr : List Point) : List Point :=
  mduGo arr []

/-- Remove equal (duplicate) points; the JS `CleanList` delegates to
`multiDimensionalUnique`. -/
def CleanList (points : List Point) : List Point :=
  multiDimensionalUnique points

/-- Maximum of a list of rationals, the JS `Math.max(...a)` as used by
`arrayMax` (only ever applied to non-empty lists). -/
def arrayMax : List ℚ → ℚ
  | [] => 0
  | x :: xs => xs.foldl max x

/-- Index of the first occurrence of `x`, the JS `Array.indexOf` in the
only situation the source uses it (the element is present; if absent the
result is the list length, which the source would turn into an
out-of-range access — unreachable because the maximum is attained). -/
def listIdxOf (x : ℚ) : List ℚ → ℕ
  | [] => 0
  | y :: ys => if y = x then 0 else listIdxOf x ys + 1

/-- Index of the point with the numerically maximum Y coordinate (the JS
`FindMinYPoint`; in the source's coordinate convention the "lowest"
point has the maximum Y value). -/
def FindMinYPoint (points : List Point) : ℕ :=
  listIdxOf (arrayMax (points.map Prod.snd)) (points.map Prod.snd)

/-- Remove the first value-match of `point` (the JS `RemovePoint`, which
splices out the first index with `pointEquals`).  When the point is
absent the JS function returns `undefined`; that situation is
unreachable in the algorithm (every removed point is a member), and the
embedding returns the list unchanged there. -/
def RemovePoint : List Point → Point → List Point
  | [], _ => []
  | p :: rest, point =>
      if pointEquals p point then rest else p :: RemovePoint rest point

/-- Append a point at the end of the array (the JS `AddPoint`). -/
def AddPoint (points : List Point) (point : Point) : List Point :=
  points ++ [point]

/-!
Rational surrogate for the angle computations.

The source computes `Angle(a, b) = pi - atan2(b1 - a1, b0 - a0)`,
normalised into `[0, 2*pi)`, stores it in `previousAngle`, and in
`SortByAngle` sorts candidates by the key
`(previousAngle - Angle(c, point)) mod 2*pi`, descending.  All these
reals are used only through order comparisons (and equality of sort
keys), never through their numeric values, so the embedding replaces the
angle `pi - atan2 v` of a vector `v` by an order-isomorphic rational
pseudo-angle:

* `diamond v` maps a non-zero direction to `[0, 4)` strictly
  monotonically in its counterclockwise angle from the positive X axis
  (the classical "diamond angle": piecewise `y/(x+y)` per quadrant);
* `atan2Key v = diamond v` shifted by `-4` on the lower half-plane is
  then order-isomorphic to `atan2` with range `(-2, 2]` matching
  `(-pi, pi]`, and maps the zero vector to `0 = atan2(0, 0)`;
* `AngleValKey v = 2 - atan2Key v` lies in `[0, 4)` and is
  order-isomorphic (via one fixed monotone bijection `[0, 2*pi) ≃ [0,4)`)
  to the source's `Angle` value `pi - atan2 v` in `[0, 2*pi)`, with the
  initial `previousAngle = pi` corresponding to the key `2`.

Because the sort key `(previousAngle - angleValue) mod 2*pi` orders the
candidates by their angle value along the circle starting just after
`previousAngle`, and the surrogate key `(prevKey - AngleValKey) mod 4`
orders them by the surrogate along the circle starting just after the
surrogate of `previousAngle`, the two descending sorts order every
candidate list identically, with identical ties.
-/

/-- Diamond pseudo-angle of a vector, in `[0, 4)`: a piecewise-rational
strictly increasing function of the counterclockwise angle from the
positive X axis (the zero vector maps to `0`). -/
def diamond (v : Point) : ℚ :=
  if 0 < v.1 ∧ 0 ≤ v.2 then v.2 / (v.1 + v.2)
  else if v.1 ≤ 0 ∧ 0 < v.2 then 1 + (-v.1) / ((-v.1) + v.2)
  else if v.1 < 0 ∧ v.2 ≤ 0 then 2 + (-v.2) / ((-v.1) + (-v.2))
  else if 0 ≤ v.1 ∧ v.2 < 0 then 3 + v.1 / (v.1 + (-v.2))
  else 0

/-- Rational surrogate of `Math.atan2` restricted to order comparisons:
order-isomorphic to `atan2` on `(-pi, pi]`, with range `(-2, 2]`. -/
def atan2Key (v : Point) : ℚ :=
  if diamond v ≤ 2 then diamond v else diamond v - 4

/-- Rational surrogate of the source's `Angle` value `pi - atan2 v`
(which already lies in `[0, 2*pi)`, so its normalisation branch never
fires); range `[0, 4)`, with `pi` itself corresponding to `2`. -/
def AngleValKey (v : Point) : ℚ :=
  2 - atan2Key v

/-- Stable insertion into an ascending-by-key list: the new element goes
before the first strictly larger key and after equal keys, so earlier
elements keep priority on ties. -/
def insertAscBy (key : Point → ℚ) (x : Point) : List Point → List Point
  | [] => [x]
  | y :: ys => if key x ≤ key y then x :: y :: ys else y :: insertAscBy key x ys

/-- Stable ascending sort by a rational key (the JS
`candidates.sort((a, b) => (a.key > b.key) ? 1 : -1)`, whose tie result
`-1` keeps the earlier element first). -/
def sortAscBy (key : Point → ℚ) (l : List Point) : List Point :=
  l.foldr (insertAscBy key) []

/-- Stable insertion into a descending-by-key list. -/
def insertDescBy (key : Point → ℚ) (x : Point) : List Point → List Point
  | [] => [x]
  | y :: ys => if key y ≤ key x then x :: y :: ys else y :: insertDescBy key x ys

/-- Stable descending sort by a rational key (the JS
`candidates.sort((a, b) => (a.key > b.key) ? -1 : 1)`; with an
inconsistent comparator the ECMAScript tie order is
implementation-defined, and the embedding fixes the stable order). -/
def sortDescBy (key : Point → ℚ) (l : List Point) : List Point :=
  l.foldr (insertDescBy key) []

/-- The `k` points of `points` nearest to `point` (the JS
`NearestPoints`): sort by distance ascending, keep the first
`min k (length)`.  Distances are compared through their squares, see
`distanceSq`. -/
def NearestPoints (points : List Point) (point : Point) (k : ℤ) : List Point :=
  (sortAscBy (fun p => distanceSq p point) points).take
    (min k (points.length : ℤ)).toNat

/-- Sort key of one candidate in `SortByAngle`: the surrogate of the JS
`prev_angle - Angle(candidate, point)`, normalised by one wrap-around
addition exactly as in the source (`if (obj.angle < 0) obj.angle += 2*pi`,
which over the surrogate range becomes `+ 4`).  The `obj.degrees` field
of the source is display-only and has no effect. -/
def angleKey (prevKey : ℚ) (point c : Point) : ℚ :=
  let a := prevKey - AngleValKey (point.1 - c.1, point.2 - c.2)
  if a < 0 then a + 4 else a

/-- Candidates sorted in descending order of right-hand turn (the JS
`SortByAngle`). -/
def SortByAngle (points : List Point) (point : Point) (prevKey : ℚ) : List Point :=
  sortDescBy (angleKey prevKey point) points

/-- Parametric segment intersection (the JS `getLineLineCollision`,
taken from the cited Stack Overflow answer): returns the intersection
point of segments `p0p1` and `p2p3`, or `none` when the parallel test
`denom === 0` fires or a parameter falls outside its admissible range.
Each JS comparison `(a < 0) == denom_positive` is an equality of
booleans, embedded as the corresponding decidable `Iff`. -/
def getLineLineCollision (p0 p1 p2 p3 : Point) : Option Point :=
  let s10x := p1.1 - p0.1
  let s10y := p1.2 - p0.2
  let s32x := p3.1 - p2.1
  let s32y := p3.2 - p2.2
  let denom := s10x * s32y - s32x * s10y
  if denom = 0 then none
  else
    let s02x := p0.1 - p2.1
    let s02y := p0.2 - p2.2
    let sNumer := s10x * s02y - s10y * s02x
    if (sNumer < 0) ↔ (0 < denom) then none
    else
      let tNumer := s32x * s02y - s32y * s02x
      if (tNumer < 0) ↔ (0 < denom) then none
      else if ((denom < sNumer) ↔ (0 < denom)) ∨ ((denom < tNumer) ↔ (0 < denom)) then
        none
      else
        let t := tNumer / denom
        some (p0.1 + t * s10x, p0.2 + t * s10y)

/-- Boolean segment-intersection test (the JS `IntersectsQ`): true
exactly when `getLineLineCollision` returns a point. -/
def IntersectsQ (lineA lineB : Point × Point) : Bool :=
  (getLineLineCollision lineA.1 lineA.2 lineB.1 lineB.2).isSome

/-- Even-odd ray-casting point-in-polygon test (the JS
`pointInPolygonNested`, from the cited `substack/point-in-polygon`
`nested.js`, always called without `start`/`end` so over the whole
vertex list).  The fold carries the `inside` flag and the previous
vertex `vs[j]`, whose initial value is the last vertex.  The division is
reached only when the edge straddles `y`, hence with a non-zero
denominator. -/
def pointInPolygonNested (point : Point) (vs : List Point) : Bool :=
  (vs.foldl
    (fun acc vi =>
      let vj := acc.2
      let inside :=
        if (¬ ((point.2 < vi.2) ↔ (point.2 < vj.2))) ∧
            point.1 < (vj.1 - vi.1) * (point.2 - vi.2) / (vj.2 - vi.2) + vi.1
        then !acc.1 else acc.1
      (inside, vi))
    (false, vs.getD (vs.length - 1) (0, 0))).1

/-- The JS `PointInPolygonQ` delegates to `pointInPolygonNested`. -/
def PointInPolygonQ (point : Point) (points : List Point) : Bool :=
  pointInPolygonNested point points

/-- Post-loop validation of `calculate`: every point still in the
working set must be inside the computed polygon (the JS backwards
while-loop with early exit computes exactly this conjunction). -/
def allInside (dataset hull : List Point) : Bool :=
  dataset.all fun p => PointInPolygonQ p hull

/-- Number of hull edges the candidate scan must skip at the far end:
`1` when the candidate is the first point (the closing edge may touch
the hull's opening edge), else `0` (the JS `lastPoint`). -/
def lastPointOf (c firstPoint : Point) : ℕ :=
  if pointEquals c firstPoint then 1 else 0

/-- Inner rejection test of the candidate scan: does the prospective
edge from the hull's last vertex (`hull[step-2]`) to the candidate
intersect any earlier hull edge `(hull[step-2-j], hull[step-1-j])` for
`j` from `2` while `j < hull.length - lastPoint`?  The JS while-loop
with early exit computes exactly this disjunction. -/
def intersectsAnyEdge (hull : List Point) (step : ℕ) (firstPoint c : Point) : Bool :=
  (List.range' 2 (hull.length - lastPointOf c firstPoint - 2)).any fun j =>
    IntersectsQ (hull.getD (step - 2) (0, 0), c)
      (hull.getD (step - 2 - j) (0, 0), hull.getD (step - 1 - j) (0, 0))

/-- Candidate selection of one loop iteration: the first sorted
candidate whose prospective edge intersects no earlier hull edge
(the JS scan over `i` with the `intersects` flag); `none` when every
candidate intersects, which triggers the retry with `k+1`. -/
def selectCandidate (hull : List Point) (step : ℕ) (firstPoint : Point)
    (cPoints : List Point) : Option Point :=
  cPoints.find? fun c => ! intersectsAnyEdge hull step firstPoint c

/-- State of the hull-construction while-loop of `calculate`. -/
structure LoopState where
  hull : List Point
  dataset : List Point
  currentPoint : Point
  previousAngle : ℚ
  step : ℕ
deriving Repr, DecidableEq

/-- Working set at the start of one loop iteration: the first point is
re-added when `step == stop` (the JS `if (step == stop) dataset =
AddPoint(dataset, firstPoint)`). -/
def loopDataset1 (firstPoint : Point) (stop : ℕ) (s : LoopState) : List Point :=
  if s.step = stop then AddPoint s.dataset firstPoint else s.dataset

/-- Tail of one accepted loop iteration: append the candidate to the
hull, recompute `previousAngle` from the last hull edge
(`Angle(hull[step-2], hull[step-1])`, via its rational surrogate),
remove the candidate from the working set, move to the candidate and
increment `step`. -/
def loopNext (s : LoopState) (dataset1 : List Point) (c : Point) : LoopState :=
  let hull2 := AddPoint s.hull c
  let a := hull2.getD (s.step - 2) (0, 0)
  let b := hull2.getD (s.step - 1) (0, 0)
  let prev2 := AngleValKey (b.1 - a.1, b.2 - a.2)
  let dataset2 := RemovePoint dataset1 c
  ⟨hull2, dataset2, c, prev2, s.step + 1⟩

/-- The hull-construction while-loop of `calculate`, with explicit fuel.
Results: `none` when fuel runs out (proved never to happen for the fuel
the caller supplies), `some none` when every candidate intersects (the
JS `return calculate(pointsList, kk+1)` retry), and
`some (some (hull, dataset))` when the loop exits normally, handing both
to the post-loop validation.  One iteration: optionally re-add the first
point at `step == stop` (`loopDataset1`), take the `kk` nearest
neighbours, sort them by descending turn angle, select the first
non-intersecting candidate, and advance the state (`loopNext`). -/
def hullLoop (firstPoint : Point) (kk : ℤ) (stop : ℕ) :
    ℕ → LoopState → Option (Option (List Point × List Point))
  | 0, _ => none
  | fuel + 1, s =>
    if (pointEquals s.currentPoint firstPoint = false ∨ s.step = 2) ∧
        0 < s.dataset.length then
      let dataset1 := loopDataset1 firstPoint stop s
      let kNearestPoints := NearestPoints dataset1 s.currentPoint kk
      let cPoints := SortByAngle kNearestPoints s.currentPoint s.previousAngle
      match selectCandidate s.hull s.step firstPoint cPoints with
      | none => some none
      | some c => hullLoop firstPoint kk stop fuel (loopNext s dataset1 c)
    else some (some (s.hull, s.dataset))

/-- Effective neighbour count of one attempt: `k` clamped to at least
`3` (`Math.max(k, 3)`) and then, past the guards, to at most
`dataset.length - 1` (`Math.min(kk, dataset.length - 1)` in the source,
where `dataset` is the deduplicated input). -/
def kkOf (pointsList : List Point) (k : ℤ) : ℤ :=
  min (max k 3) (((CleanList pointsList).length : ℤ) - 1)

/-- Seed of the hull: the deduplicated input indexed at
`FindMinYPoint`, i.e. its first point of maximum Y coordinate. -/
def firstPointOf (pointsList : List Point) : Point :=
  (CleanList pointsList).getD (FindMinYPoint (CleanList pointsList)) (0, 0)

/-- The JS `calculate(pointsList, k)` with explicit fuel bounding the
retry chain: `none` means fuel ran out, `some none` is the JS `null`
failure signal, `some (some hull)` a computed hull.  Faithful flow:
clamp `k` to at least `3`; fail when the clamped `k` reaches the length
of the raw input list; deduplicate; fail below `3` distinct points;
return the dataset itself at exactly `3`; clamp `k` to
`dataset.length - 1` (`kkOf`); seed the hull with the maximum-Y point
(`firstPointOf`); run the while-loop (`previousAngle` starts at the
surrogate `2` of `pi`, `step` at `2`, `stop` at `step + kk`); on loop
failure or a leftover point outside the polygon, retry the whole
computation with `kk + 1`. -/
def calcFuel : ℕ → List Point → ℤ → Option (Option (List Point))
  | 0, _, _ => none
  | fuel + 1, pointsList, k =>
    let kk := max k 3
    if (pointsList.length : ℤ) ≤ kk then some none
    else
      let dataset := CleanList pointsList
      if dataset.length < 3 then some none
      else if dataset.length = 3 then some (some dataset)
      else
        let kk2 := kkOf pointsList k
        let firstPoint := firstPointOf pointsList
        let dataset1 := RemovePoint dataset firstPoint
        let stop := 2 + kk2.toNat
        match hullLoop firstPoint kk2 stop (dataset1.length + 3)
            ⟨[firstPoint], dataset1, firstPoint, 2, 2⟩ with
        | none => none
        | some none => calcFuel fuel pointsList (kk2 + 1)
        | some (some (hull, datasetF)) =>
          if allInside datasetF hull then some (some hull)
          else calcFuel fuel pointsList (kk2 + 1)

/-- Real-valued embedding of the JS `Angle(pointA, pointB)`:
`Math.atan2 (y, x)` is the argument of the complex number `x + y*i`
(both lie in `(-pi, pi]` and send the origin to `0`), so the source's
`angle = Math.PI - Math.atan2(b1 - a1, b0 - a0)` followed by
`if (angle < 0) angle += 2*Math.PI` is embedded literally. -/
noncomputable def Angle (pointA pointB : Point) : ℝ :=
  let angle := Complex.arg ⟨((pointB.1 - pointA.1 : ℚ) : ℝ), ((pointB.2 - pointA.2 : ℚ) : ℝ)⟩
  let angle2 := Real.pi - angle
  if angle2 < 0 then angle2 + 2 * Real.pi else angle2

/-- Edge `i` of a hull: the segment from vertex `i` to vertex `i + 1`,
with the same defaulted indexing the loop uses. -/
def hullEdge (hull : List Point) (i : ℕ) : Point × Point :=
  (hull.getD i (0, 0), hull.getD (i + 1) (0, 0))

/-- Non-self-intersection property of a (partial or final) hull, in the
orientation the algorithm itself checks: every edge, tested as `lineA`
against each earlier edge at distance at least two as `lineB`, reports
no intersection.  The pair of edge `0` and a final edge ending at the
first point (the closing edge) is exempt: those two edges share the
first point, and the candidate scan skips that pair (`lastPoint = 1`). -/
def SimpleInv (hull : List Point) (firstPoint : Point) : Prop :=
  ∀ m n : ℕ, m + 2 ≤ n → n + 1 < hull.length →
    (m ≠ 0 ∨ hull.getD (n + 1) (0, 0) ≠ firstPoint) →
    IntersectsQ (hullEdge hull n) (hullEdge hull m) = false

/-- Invariant of the hull-construction loop, relative to the
deduplicated input `dedup`, the seed `firstPoint` and the re-insertion
step `stop`.  It records the structural facts the claims need: the hull
starts at the seed and ends at the current point, `step` counts hull
vertices plus one, the working set is duplicate-free and together with
the hull covers `dedup`, hull vertices are distinct (except that the
final vertex may close the polygon on the seed), a working-set point can
be a hull vertex only if it is the re-added seed, the seed is outside
the working set until re-insertion, and the partial hull passes the
pairwise edge checks recorded by `SimpleInv`. -/
structure LoopInv (dedup : List Point) (firstPoint : Point) (stop : ℕ)
    (s : LoopState) : Prop where
  head_first : s.hull.head? = some firstPoint
  last_current : s.hull.getLast? = some s.currentPoint
  step_eq : s.step = s.hull.length + 1
  two_le : 2 ≤ s.step
  ds_nodup : s.dataset.Nodup
  ds_sub : ∀ p ∈ s.dataset, p ∈ dedup
  hull_sub : ∀ p ∈ s.hull, p ∈ dedup
  cover : ∀ p ∈ dedup, p ∈ s.dataset ∨ p ∈ s.hull
  dl_nodup : s.hull.dropLast.Nodup
  full_nodup : s.currentPoint ≠ firstPoint → s.hull.Nodup
  disj : ∀ p ∈ s.dataset, p ∉ s.hull ∨ p = firstPoint
  first_not_mem : s.step ≤ stop → firstPoint ∉ s.dataset
  simple : SimpleInv s.hull firstPoint

/-- What holds of the hull and leftover working set handed to the
post-loop validation when the while-loop exits normally. -/
structure LoopPost (dedup : List Point) (firstPoint : Point)
    (hull datasetF : List Point) : Prop where
  head_first : hull.head? = some firstPoint
  ds_nodup : datasetF.Nodup
  ds_sub : ∀ p ∈ datasetF, p ∈ dedup
  hull_sub : ∀ p ∈ hull, p ∈ dedup
  cover : ∀ p ∈ dedup, p ∈ datasetF ∨ p ∈ hull
  dl_nodup : hull.dropLast.Nodup
  closed_or_exhausted : hull.getLast? = some firstPoint ∨ datasetF = []
  open_nodup : hull.getLast? ≠ some firstPoint → hull.Nodup
  simple : SimpleInv hull firstPoint

/-- Three distinct points, the spec's concrete scenario C. -/
def trianglePts : List Point := [(0, 0), (1, 0), (0, 1)]

/-- The three distinct points of scenario C followed by one exact
duplicate of the first. -/
def triangleDupPts : List Point := [(0, 0), (1, 0), (0, 1), (0, 0)]

/-- Five distinct generic points plus one exact duplicate of the first:
the number of distinct points is `5`, the raw length `6`. -/
def dupFivePts : List Point := [(0, 4), (1, 6), (4, 1), (0, 6), (8, 8), (0, 4)]

/-- Four distinct generic points plus one exact duplicate of the first. -/
def fourDupPts : List Point := [(0, 0), (3, 1), (5, 4), (1, 3), (0, 0)]

/-- Four distinct points in generic position. -/
def fourPts : List Point := [(0, 0), (3, 1), (5, 4), (1, 3)]

/-- Five distinct points whose hull at `k = 3` closes around one
interior leftover point `(1, 3)`. -/
def pentagonPts : List Point := [(0, 3), (3, 0), (7, 6), (6, 6), (1, 3)]

/-- Five distinct points whose hull at `k = 3` closes with its final
edge passing exactly through the non-adjacent hull vertex `(1, 3)`. -/
def touchPts : List Point := [(3, 1), (0, 4), (6, 0), (1, 3), (4, 0)]

/-! Basic lemmas about the embedded primitives. -/

theorem pointEquals_iff {a b : Point} : pointEquals a b = true ↔ a = b := by
  simp [pointEquals, Prod.ext_iff]

theorem pointEquals_false_iff {a b : Point} : pointEquals a b = false ↔ a ≠ b := by
  rw [← Bool.not_eq_true, not_iff_not, pointEquals_iff]

theorem mem_insertAscBy {key : Point → ℚ} {x a : Point} :
    ∀ {l : List Point}, a ∈ insertAscBy key x l ↔ a = x ∨ a ∈ l := by
  intro l
  induction l with
  | nil => simp [insertAscBy]
  | cons y ys ih =>
      by_cases h : key x ≤ key y
      · simp [insertAscBy, h]
      · simp only [insertAscBy, if_neg h, List.mem_cons, ih]
        tauto

theorem mem_sortAscBy {key : Point → ℚ} {a : Point} :
    ∀ {l : List Point}, a ∈ sortAscBy key l ↔ a ∈ l := by
  intro l
  induction l with
  | nil => simp [sortAscBy]
  | cons y ys ih =>
      simp only [sortAscBy, List.foldr_cons, List.mem_cons]
      rw [mem_insertAscBy]
      simp only [sortAscBy] at ih
      rw [ih]

theorem mem_insertDescBy {key : Point → ℚ} {x a : Point} :
    ∀ {l : List Point}, a ∈ insertDescBy key x l ↔ a = x ∨ a ∈ l := by
  intro l
  induction l with
  | nil => simp [insertDescBy]
  | cons y ys ih =>
      by_cases h : key y ≤ key x
      · simp [insertDescBy, h]
      · simp only [insertDescBy, if_neg h, List.mem_cons, ih]
        tauto

theorem mem_sortDescBy {key : Point → ℚ} {a : Point} :
    ∀ {l : List Point}, a ∈ sortDescBy key l ↔ a ∈ l := by
  intro l
  induction l with
  | nil => simp [sortDescBy]
  | cons y ys ih =>
      simp only [sortDescBy, List.foldr_cons, List.mem_cons]
      rw [mem_insertDescBy]
      simp only [sortDescBy] at ih
      rw [ih]

theorem NearestPoints_subset {points : List Point} {point : Point} {k : ℤ} {a : Point}
    (h : a ∈ NearestPoints points point k) : a ∈ points := by
  have h2 := List.mem_of_mem_take h
  exact mem_sortAscBy.mp h2

theorem SortByAngle_subset {points : List Point} {point : Point} {prevKey : ℚ} {a : Point}
    (h : a ∈ SortByAngle points point prevKey) : a ∈ points :=
  mem_sortDescBy.mp h

theorem selectCandidate_mem {hull : List Point} {step : ℕ} {firstPoint c : Point}
    {cPoints : List Point} (h : selectCandidate hull step firstPoint cPoints = some c) :
    c ∈ cPoints :=
  List.mem_of_find?_eq_some h

theorem selectCandidate_ok {hull : List Point} {step : ℕ} {firstPoint c : Point}
    {cPoints : List Point} (h : selectCandidate hull step firstPoint cPoints = some c) :
    intersectsAnyEdge hull step firstPoint c = false := by
  have h2 := List.find?_some h
  simpa using h2

theorem RemovePoint_sublist : ∀ (l : List Point) (p : Point), List.Sublist (RemovePoint l p) l := by
  intro l p
  induction l with
  | nil => simp [RemovePoint]
  | cons x xs ih =>
      by_cases h : pointEquals x p
      · simp only [RemovePoint, if_pos h]
        exact List.sublist_cons_self x xs
      · simp only [RemovePoint, if_neg h]
        exact List.Sublist.cons₂ x ih

theorem RemovePoint_subset {l : List Point} {p a : Point}
    (h : a ∈ RemovePoint l p) : a ∈ l :=
  (RemovePoint_sublist l p).subset h

theorem RemovePoint_nodup {l : List Point} {p : Point} (h : l.Nodup) :
    (RemovePoint l p).Nodup :=
  (RemovePoint_sublist l p).nodup h

theorem mem_RemovePoint_of_ne {l : List Point} {p a : Point}
    (ha : a ∈ l) (hne : a ≠ p) : a ∈ RemovePoint l p := by
  induction l with
  | nil => simp at ha
  | cons x xs ih =>
      by_cases h : pointEquals x p
      · have hx : x = p := pointEquals_iff.mp h
        simp only [RemovePoint, if_pos h]
        rcases List.mem_cons.mp ha with rfl | hmem
        · exact absurd hx hne
        · exact hmem
      · simp only [RemovePoint, if_neg h, List.mem_cons]
        rcases List.mem_cons.mp ha with rfl | hmem
        · exact Or.inl rfl
        · exact Or.inr (ih hmem)

theorem not_mem_RemovePoint {l : List Point} {p : Point} (h : l.Nodup) :
    p ∉ RemovePoint l p := by
  induction l with
  | nil => simp [RemovePoint]
  | cons x xs ih =>
      by_cases hx : pointEquals x p
      · have hx2 : x = p := pointEquals_iff.mp hx
        simp only [RemovePoint, if_pos hx]
        subst hx2
        exact (List.nodup_cons.mp h).1
      · have hx2 : x ≠ p := pointEquals_false_iff.mp (by simpa using hx)
        simp only [RemovePoint, if_neg hx, List.mem_cons]
        rintro (rfl | hmem)
        · exact hx2 rfl
        · exact ih (List.nodup_cons.mp h).2 hmem

theorem length_RemovePoint {l : List Point} {p : Point} (h : p ∈ l) :
    (RemovePoint l p).length + 1 = l.length := by
  induction l with
  | nil => simp at h
  | cons x xs ih =>
      by_cases hx : pointEquals x p
      · simp [RemovePoint, hx]
      · have hx2 : x ≠ p := pointEquals_false_iff.mp (by simpa using hx)
        have hmem : p ∈ xs := by
          rcases List.mem_cons.mp h with rfl | hmem
          · exact absurd rfl hx2.symm
          · exact hmem
        simp only [RemovePoint, if_neg hx, List.length_cons]
        rw [← ih hmem]

theorem mem_mduGo {a : Point} :
    ∀ (l acc : List Point), a ∈ mduGo l acc ↔ a ∈ l ∨ a ∈ acc := by
  intro l
  induction l with
  | nil => intro acc; simp [mduGo]
  | cons x xs ih =>
      intro acc
      by_cases h : x ∈ acc
      · rw [mduGo, if_pos h, ih]
        constructor
        · rintro (hm | hm)
          · exact Or.inl (List.mem_cons_of_mem x hm)
          · exact Or.inr hm
        · rintro (hm | hm)
          · rcases List.mem_cons.mp hm with rfl | hm2
            · exact Or.inr h
            · exact Or.inl hm2
          · exact Or.inr hm
      · rw [mduGo, if_neg h, ih]
        simp only [List.mem_append, List.mem_cons, List.mem_singleton]
        tauto

theorem nodup_mduGo :
    ∀ (l acc : List Point), acc.Nodup → (mduGo l acc).Nodup := by
  intro l
  induction l with
  | nil => intro acc h; simpa [mduGo] using h
  | cons x xs ih =>
      intro acc h
      by_cases hx : x ∈ acc
      · rw [mduGo, if_pos hx]; exact ih acc h
      · rw [mduGo, if_neg hx]
        refine ih (acc ++ [x]) ?_
        rw [List.nodup_append]
        exact ⟨h, List.nodup_singleton x, List.disjoint_singleton.mpr hx⟩

theorem CleanList_nodup (l : List Point) : (CleanList l).Nodup :=
  nodup_mduGo l [] List.nodup_nil

theorem mem_CleanList {a : Point} {l : List Point} : a ∈ CleanList l ↔ a ∈ l := by
  rw [CleanList, multiDimensionalUnique, mem_mduGo]
  simp

theorem mduGo_of_nodup :
    ∀ (l acc : List Point), l.Nodup → (∀ a ∈ l, a ∉ acc) → mduGo l acc = acc ++ l := by
  intro l
  induction l with
  | nil => intro acc _ _; simp [mduGo]
  | cons x xs ih =>
      intro acc hnd hdisj
      have hx : x ∉ acc := hdisj x (List.mem_cons_self x xs)
      rw [mduGo, if_neg hx, ih (acc ++ [x]) (List.nodup_cons.mp hnd).2]
      · simp
      · intro a ha
        simp only [List.mem_append, List.mem_singleton]
        rintro (hacc | rfl)
        · exact hdisj a (List.mem_cons_of_mem x ha) hacc
        · exact (List.nodup_cons.mp hnd).1 ha

theorem CleanList_of_nodup {l : List Point} (h : l.Nodup) : CleanList l = l := by
  rw [CleanList, multiDimensionalUnique, mduGo_of_nodup l [] h (by simp)]
  simp

theorem CleanList_idem (l : List Point) : CleanList (CleanList l) = CleanList l :=
  CleanList_of_nodup (CleanList_nodup l)

theorem length_mduGo_le :
    ∀ (l acc : List Point), (mduGo l acc).length ≤ acc.length + l.length := by
  intro l
  induction l with
  | nil => intro acc; simp [mduGo]
  | cons x xs ih =>
      intro acc
      by_cases hx : x ∈ acc
      · rw [mduGo, if_pos hx]
        calc (mduGo xs acc).length ≤ acc.length + xs.length := ih acc
          _ ≤ acc.length + (x :: xs).length := by
              simp only [List.length_cons]; omega
      · rw [mduGo, if_neg hx]
        calc (mduGo xs (acc ++ [x])).length ≤ (acc ++ [x]).length + xs.length := ih _
          _ = acc.length + (x :: xs).length := by
              simp only [List.length_append, List.length_cons, List.length_nil]; omega

theorem CleanList_length_le (l : List Point) : (CleanList l).length ≤ l.length := by
  simpa using length_mduGo_le l []

theorem foldlMax_mem : ∀ (xs : List ℚ) (x : ℚ), xs.foldl max x = x ∨ xs.foldl max x ∈ xs := by
  intro xs
  induction xs with
  | nil => intro x; simp
  | cons y ys ih =>
      intro x
      rcases ih (max x y) with h | h
      · rcases max_choice x y with hm | hm
        · exact Or.inl (by rw [List.foldl_cons, h, hm])
        · refine Or.inr (List.mem_cons.mpr (Or.inl ?_))
          rw [List.foldl_cons, h, hm]
      · exact Or.inr (List.mem_cons_of_mem y h)

theorem arrayMax_mem : ∀ (l : List ℚ), l ≠ [] → arrayMax l ∈ l := by
  intro l h
  cases l with
  | nil => exact absurd rfl h
  | cons x xs =>
      rcases foldlMax_mem xs x with h2 | h2
      · rw [arrayMax, h2]; exact List.mem_cons_self x xs
      · exact List.mem_cons_of_mem x (by rw [arrayMax]; exact h2)

theorem listIdxOf_lt_length {x : ℚ} : ∀ {l : List ℚ}, x ∈ l → listIdxOf x l < l.length := by
  intro l
  induction l with
  | nil => intro h; simp at h
  | cons y ys ih =>
      intro h
      by_cases hy : y = x
      · simp [listIdxOf, hy]
      · rw [listIdxOf, if_neg hy]
        have hm : x ∈ ys := by
          rcases List.mem_cons.mp h with rfl | hm
          · exact absurd rfl hy
          · exact hm
        simpa using ih hm

theorem getD_mem : ∀ (l : List Point) (n : ℕ) (d : Point), n < l.length → l.getD n d ∈ l := by
  intro l
  induction l with
  | nil => intro n d h; simp at h
  | cons a l ih =>
      intro n d h
      cases n with
      | zero => simp [List.getD]
      | succ m =>
          have hm : m < l.length := by simpa using h
          have := ih m d hm
          simpa [List.getD] using List.mem_cons_of_mem a this

theorem FindMinYPoint_lt_length {points : List Point} (h : points ≠ []) :
    FindMinYPoint points < points.length := by
  have hmap : points.map Prod.snd ≠ [] := by
    simpa using h
  have hmem := arrayMax_mem (points.map Prod.snd) hmap
  have := listIdxOf_lt_length hmem
  simpa [FindMinYPoint] using this

theorem nodup_concat {l : List Point} {a : Point} (h : l.Nodup) (ha : a ∉ l) :
    (l ++ [a]).Nodup := by
  rw [List.nodup_append]
  exact ⟨h, List.nodup_singleton a, List.disjoint_singleton.mpr ha⟩

theorem head?_concat_of_head? {l : List Point} {a h : Point}
    (hh : l.head? = some h) : (l ++ [a]).head? = some h := by
  cases l with
  | nil => simp at hh
  | cons b t => simpa using hh

theorem getD_concat_self : ∀ {l : List Point} {a d : Point},
    (l ++ [a]).getD l.length d = a := by
  intro l
  induction l with
  | nil => intro a d; rfl
  | cons x xs ih =>
      intro a d
      have h2 : ((x :: xs) ++ [a]).getD (xs.length + 1) d = (xs ++ [a]).getD xs.length d := rfl
      rw [List.length_cons, h2]
      exact ih

/-! Lemmas about the hull-construction loop. -/

theorem hullLoop_succ (firstPoint : Point) (kk : ℤ) (stop fuel : ℕ) (s : LoopState) :
    hullLoop firstPoint kk stop (fuel + 1) s =
      if (pointEquals s.currentPoint firstPoint = false ∨ s.step = 2) ∧
          0 < s.dataset.length then
        match selectCandidate s.hull s.step firstPoint
            (SortByAngle (NearestPoints (loopDataset1 firstPoint stop s) s.currentPoint kk)
              s.currentPoint s.previousAngle) with
        | none => some none
        | some c => hullLoop firstPoint kk stop fuel (loopNext s (loopDataset1 firstPoint stop s) c)
      else some (some (s.hull, s.dataset)) := rfl

theorem mem_loopDataset1 {firstPoint : Point} {stop : ℕ} {s : LoopState} {p : Point}
    (h : p ∈ loopDataset1 firstPoint stop s) : p ∈ s.dataset ∨ p = firstPoint := by
  by_cases hs : s.step = stop
  · rw [loopDataset1, if_pos hs, AddPoint] at h
    rcases List.mem_append.mp h with h2 | h2
    · exact Or.inl h2
    · exact Or.inr (List.mem_singleton.mp h2)
  · rw [loopDataset1, if_neg hs] at h
    exact Or.inl h

theorem subset_loopDataset1 {firstPoint : Point} {stop : ℕ} {s : LoopState} {p : Point}
    (h : p ∈ s.dataset) : p ∈ loopDataset1 firstPoint stop s := by
  by_cases hs : s.step = stop
  · rw [loopDataset1, if_pos hs, AddPoint]
    exact List.mem_append.mpr (Or.inl h)
  · rwa [loopDataset1, if_neg hs]

theorem loopDataset1_nodup {dedup : List Point} {firstPoint : Point} {stop : ℕ}
    {s : LoopState} (hinv : LoopInv dedup firstPoint stop s) :
    (loopDataset1 firstPoint stop s).Nodup := by
  by_cases hs : s.step = stop
  · rw [loopDataset1, if_pos hs, AddPoint]
    exact nodup_concat hinv.ds_nodup (hinv.first_not_mem (le_of_eq hs))
  · rw [loopDataset1, if_neg hs]
    exact hinv.ds_nodup

theorem hull_nodup_of_cond {dedup : List Point} {firstPoint : Point} {stop : ℕ}
    {s : LoopState} (hinv : LoopInv dedup firstPoint stop s)
    (hcond : pointEquals s.currentPoint firstPoint = false ∨ s.step = 2) :
    s.hull.Nodup := by
  rcases hcond with h | h
  · exact hinv.full_nodup (pointEquals_false_iff.mp h)
  · have hlen : s.hull.length = 1 := by
      have := hinv.step_eq
      omega
    rcases List.length_eq_one.mp hlen with ⟨a, ha⟩
    rw [ha]
    exact List.nodup_singleton a

theorem SimpleInv.extend {hull : List Point} {firstPoint c : Point} {step : ℕ}
    (hs : SimpleInv hull firstPoint)
    (hstep : step = hull.length + 1)
    (hok : intersectsAnyEdge hull step firstPoint c = false) :
    SimpleInv (hull ++ [c]) firstPoint := by
  intro m n hmn hn hcond
  have hlen2 : (hull ++ [c]).length = hull.length + 1 := by simp
  rw [hlen2] at hn
  have hm1 : m + 1 < hull.length := by omega
  have hedge_m : hullEdge (hull ++ [c]) m = hullEdge hull m := by
    rw [hullEdge, hullEdge, List.getD_append _ _ _ _ (by omega), List.getD_append _ _ _ _ hm1]
  by_cases hcase : n + 1 < hull.length
  · have hedge_n : hullEdge (hull ++ [c]) n = hullEdge hull n := by
      rw [hullEdge, hullEdge, List.getD_append _ _ _ _ (by omega),
        List.getD_append _ _ _ _ hcase]
    have hcond2 : m ≠ 0 ∨ hull.getD (n + 1) (0, 0) ≠ firstPoint := by
      rcases hcond with h | h
      · exact Or.inl h
      · rw [List.getD_append _ _ _ _ hcase] at h
        exact Or.inr h
    rw [hedge_m, hedge_n]
    exact hs m n hmn hcase hcond2
  · have hn_eq : n + 1 = hull.length := by omega
    rw [intersectsAnyEdge, List.any_eq_false] at hok
    have hgetc : (hull ++ [c]).getD (n + 1) (0, 0) = c := by
      rw [hn_eq]
      exact getD_concat_self
    have hlp : lastPointOf c firstPoint ≤ m := by
      by_cases hcf : pointEquals c firstPoint
      · have hc_first : c = firstPoint := pointEquals_iff.mp hcf
        have hm0 : m ≠ 0 := by
          rcases hcond with h | h
          · exact h
          · rw [hgetc, hc_first] at h
            exact absurd rfl h
        rw [lastPointOf, if_pos hcf]
        omega
      · rw [lastPointOf, if_neg hcf]
        omega
    have hlp1 : lastPointOf c firstPoint ≤ 1 := by
      rw [lastPointOf]
      split <;> omega
    have hjmem : (hull.length - 1 - m) ∈
        List.range' 2 (hull.length - lastPointOf c firstPoint - 2) := by
      rw [List.mem_range'_1]
      omega
    have hspec := hok _ hjmem
    rw [Bool.not_eq_true] at hspec
    have h1 : step - 2 = n := by omega
    have h2 : step - 2 - (hull.length - 1 - m) = m := by omega
    have h3 : step - 1 - (hull.length - 1 - m) = m + 1 := by omega
    rw [h2, h3, h1] at hspec
    have hedge_n : hullEdge (hull ++ [c]) n = (hull.getD n (0, 0), c) := by
      rw [hullEdge, List.getD_append _ _ _ _ (by omega), hgetc]
    rw [hedge_m, hedge_n, hullEdge]
    exact hspec

theorem loopInv_step {dedup : List Point} {firstPoint : Point} {stop : ℕ} {kk : ℤ}
    {s : LoopState} {c : Point}
    (hinv : LoopInv dedup firstPoint stop s)
    (hfirst : firstPoint ∈ dedup)
    (hcond : (pointEquals s.currentPoint firstPoint = false ∨ s.step = 2) ∧
      0 < s.dataset.length)
    (hsel : selectCandidate s.hull s.step firstPoint
        (SortByAngle (NearestPoints (loopDataset1 firstPoint stop s) s.currentPoint kk)
          s.currentPoint s.previousAngle) = some c) :
    LoopInv dedup firstPoint stop (loopNext s (loopDataset1 firstPoint stop s) c) := by
  have hds1_nodup : (loopDataset1 firstPoint stop s).Nodup := loopDataset1_nodup hinv
  have hc_ds1 : c ∈ loopDataset1 firstPoint stop s :=
    NearestPoints_subset (SortByAngle_subset (selectCandidate_mem hsel))
  have hc_dedup : c ∈ dedup := by
    rcases mem_loopDataset1 hc_ds1 with h | h
    · exact hinv.ds_sub c h
    · exact h ▸ hfirst
  have hhull_nodup : s.hull.Nodup := hull_nodup_of_cond hinv hcond.1
  have hc_not_hull : c ≠ firstPoint → c ∉ s.hull := by
    intro hne
    rcases mem_loopDataset1 hc_ds1 with h | h
    · rcases hinv.disj c h with h2 | h2
      · exact h2
      · exact absurd h2 hne
    · exact absurd h hne
  have hok := selectCandidate_ok hsel
  refine ⟨?_, ?_, ?_, ?_, ?_, ?_, ?_, ?_, ?_, ?_, ?_, ?_, ?_⟩
  · exact head?_concat_of_head? hinv.head_first
  · exact List.getLast?_concat s.hull
  · show s.step + 1 = (AddPoint s.hull c).length + 1
    rw [AddPoint, List.length_append, hinv.step_eq]
    simp
  · show 2 ≤ s.step + 1
    have := hinv.two_le
    omega
  · exact RemovePoint_nodup hds1_nodup
  · intro p hp
    rcases mem_loopDataset1 (RemovePoint_subset hp) with h | h
    · exact hinv.ds_sub p h
    · exact h ▸ hfirst
  · intro p hp
    rw [loopNext] at hp
    rcases List.mem_append.mp hp with h | h
    · exact hinv.hull_sub p h
    · exact (List.mem_singleton.mp h) ▸ hc_dedup
  · intro p hp
    rcases hinv.cover p hp with h | h
    · by_cases hpc : p = c
      · right
        rw [loopNext, AddPoint]
        exact List.mem_append.mpr (Or.inr (hpc ▸ List.mem_singleton_self c))
      · left
        exact mem_RemovePoint_of_ne (subset_loopDataset1 h) hpc
    · right
      rw [loopNext, AddPoint]
      exact List.mem_append.mpr (Or.inl h)
  · show ((AddPoint s.hull c).dropLast).Nodup
    rw [AddPoint, List.dropLast_concat]
    exact hhull_nodup
  · intro hne
    show (AddPoint s.hull c).Nodup
    rw [AddPoint]
    exact nodup_concat hhull_nodup (hc_not_hull hne)
  · intro p hp
    have hp_ds1 : p ∈ loopDataset1 firstPoint stop s := RemovePoint_subset hp
    have hp_ne_c : p ≠ c := by
      intro h
      exact not_mem_RemovePoint hds1_nodup (h ▸ hp)
    rcases mem_loopDataset1 hp_ds1 with h | h
    · rcases hinv.disj p h with h2 | h2
      · left
        rw [loopNext, AddPoint]
        intro hmem
        rcases List.mem_append.mp hmem with h3 | h3
        · exact h2 h3
        · exact hp_ne_c (List.mem_singleton.mp h3)
      · exact Or.inr h2
    · exact Or.inr h
  · intro hle
    show firstPoint ∉ RemovePoint (loopDataset1 firstPoint stop s) c
    have hlt : s.step < stop := by
      have : s.step + 1 ≤ stop := hle
      omega
    have hne : s.step ≠ stop := Nat.ne_of_lt hlt
    rw [loopDataset1, if_neg hne]
    intro hmem
    exact hinv.first_not_mem (le_of_lt hlt) (RemovePoint_subset hmem)
  · show SimpleInv (AddPoint s.hull c) firstPoint
    rw [AddPoint]
    exact SimpleInv.extend hinv.simple hinv.step_eq hok

theorem hullLoop_post {dedup : List Point} {firstPoint : Point} {kk : ℤ} {stop : ℕ}
    (hfirst : firstPoint ∈ dedup) :
    ∀ (fuel : ℕ) (s : LoopState) (hull datasetF : List Point),
      LoopInv dedup firstPoint stop s →
      hullLoop firstPoint kk stop fuel s = some (some (hull, datasetF)) →
      LoopPost dedup firstPoint hull datasetF := by
  intro fuel
  induction fuel with
  | zero =>
      intro s hull ds _ h
      simp [hullLoop] at h
  | succ fuel ih =>
      intro s hull ds hinv hrun
      rw [hullLoop_succ] at hrun
      by_cases hcond : (pointEquals s.currentPoint firstPoint = false ∨ s.step = 2) ∧
          0 < s.dataset.length
      · rw [if_pos hcond] at hrun
        cases hsel : selectCandidate s.hull s.step firstPoint
            (SortByAngle (NearestPoints (loopDataset1 firstPoint stop s) s.currentPoint kk)
              s.currentPoint s.previousAngle) with
        | none =>
            rw [hsel] at hrun
            simp at hrun
        | some c =>
            rw [hsel] at hrun
            exact ih _ hull ds (loopInv_step hinv hfirst hcond hsel) hrun
      · rw [if_neg hcond] at hrun
        have hpair : s.hull = hull ∧ s.dataset = ds := by
          have h2 := Option.some.inj (Option.some.inj hrun)
          exact ⟨congrArg Prod.fst h2, congrArg Prod.snd h2⟩
        obtain ⟨h3, h4⟩ := hpair
        subst h3
        subst h4
        have hexit : (pointEquals s.currentPoint firstPoint = true ∧ s.step ≠ 2) ∨
            s.dataset.length = 0 := by
          by_cases hd : 0 < s.dataset.length
          · left
            constructor
            · rcases Bool.eq_false_or_eq_true (pointEquals s.currentPoint firstPoint)
                with hb | hb
              · exact hb
              · exact absurd ⟨Or.inl hb, hd⟩ hcond
            · intro h2
              exact hcond ⟨Or.inr h2, hd⟩
          · right
            omega
        refine ⟨hinv.head_first, hinv.ds_nodup, hinv.ds_sub, hinv.hull_sub, hinv.cover,
          hinv.dl_nodup, ?_, ?_, hinv.simple⟩
        · rcases hexit with ⟨hcur, _⟩ | hlen
          · left
            rw [hinv.last_current]
            exact congrArg some (pointEquals_iff.mp hcur)
          · right
            exact List.length_eq_zero.mp hlen
        · intro hne
          refine hinv.full_nodup ?_
          intro h
          exact hne (h ▸ hinv.last_current)

/-! Lemmas about `calcFuel`. -/

theorem firstPointOf_mem {pts : List Point} (h : 1 ≤ (CleanList pts).length) :
    firstPointOf pts ∈ CleanList pts := by
  rw [firstPointOf]
  refine getD_mem _ _ _ (FindMinYPoint_lt_length ?_)
  intro hnil
  rw [hnil] at h
  simp at h

theorem initInv {pts : List Point} (h4 : 4 ≤ (CleanList pts).length) (stop : ℕ) :
    LoopInv (CleanList pts) (firstPointOf pts) stop
      ⟨[firstPointOf pts], RemovePoint (CleanList pts) (firstPointOf pts),
        firstPointOf pts, 2, 2⟩ := by
  have hnodup : (CleanList pts).Nodup := CleanList_nodup pts
  refine ⟨rfl, rfl, rfl, le_refl 2, RemovePoint_nodup hnodup, ?_, ?_, ?_, ?_, ?_, ?_, ?_, ?_⟩
  · intro p hp
    exact RemovePoint_subset hp
  · intro p hp
    rcases List.mem_singleton.mp hp with rfl
    exact firstPointOf_mem (by omega)
  · intro p hp
    by_cases hpf : p = firstPointOf pts
    · exact Or.inr (List.mem_singleton.mpr hpf)
    · exact Or.inl (mem_RemovePoint_of_ne hp hpf)
  · simp
  · intro _
    exact List.nodup_singleton _
  · intro p hp
    left
    intro hmem
    rcases List.mem_singleton.mp hmem with rfl
    exact not_mem_RemovePoint hnodup hp
  · intro _
    exact not_mem_RemovePoint hnodup
  · intro m n hmn hn hcond
    simp only [List.length_singleton] at hn
    omega

theorem calcFuel_success : ∀ (fuel : ℕ) (pts : List Point) (k : ℤ) (hull : List Point),
    4 ≤ (CleanList pts).length →
    calcFuel fuel pts k = some (some hull) →
    ∃ datasetF, LoopPost (CleanList pts) (firstPointOf pts) hull datasetF ∧
      allInside datasetF hull = true := by
  intro fuel
  induction fuel with
  | zero =>
      intro pts k hull _ h
      simp [calcFuel] at h
  | succ fuel ih =>
      intro pts k hull h4 h
      simp only [calcFuel] at h
      split at h
      · simp at h
      · split at h
        · simp at h
        · split at h
          · omega
          · split at h
            · simp at h
            · exact ih pts _ hull h4 h
            · rename_i hull2 ds hmatch
              split at h
              · rename_i hall
                have hh : hull2 = hull := by
                  simpa using h
                subst hh
                refine ⟨ds, ?_, hall⟩
                exact hullLoop_post (firstPointOf_mem (by omega)) _ _ hull2 ds
                  (initInv h4 _) hmatch
              · exact ih pts _ hull h4 h

theorem length_loopDataset1 {firstPoint : Point} {stop : ℕ} {s : LoopState} :
    (loopDataset1 firstPoint stop s).length =
      s.dataset.length + (if s.step = stop then 1 else 0) := by
  by_cases hs : s.step = stop
  · rw [loopDataset1, if_pos hs, if_pos hs, AddPoint]
    simp
  · rw [loopDataset1, if_neg hs, if_neg hs]
    omega

theorem hullLoop_fuel_sufficient {firstPoint : Point} {kk : ℤ} {stop : ℕ} :
    ∀ (fuel : ℕ) (s : LoopState),
      s.dataset.length + (if s.step ≤ stop then 2 else 0) < fuel →
      hullLoop firstPoint kk stop fuel s ≠ none := by
  intro fuel
  induction fuel with
  | zero =>
      intro s hm
      omega
  | succ fuel ih =>
      intro s hm
      rw [hullLoop_succ]
      by_cases hcond : (pointEquals s.currentPoint firstPoint = false ∨ s.step = 2) ∧
          0 < s.dataset.length
      · rw [if_pos hcond]
        cases hsel : selectCandidate s.hull s.step firstPoint
            (SortByAngle (NearestPoints (loopDataset1 firstPoint stop s) s.currentPoint kk)
              s.currentPoint s.previousAngle) with
        | none => simp
        | some c =>
            have hc : c ∈ loopDataset1 firstPoint stop s :=
              NearestPoints_subset (SortByAngle_subset (selectCandidate_mem hsel))
            have hlen := length_RemovePoint hc
            have hlen1 := @length_loopDataset1 firstPoint stop s
            refine ih (loopNext s (loopDataset1 firstPoint stop s) c) ?_
            show (RemovePoint (loopDataset1 firstPoint stop s) c).length +
              (if s.step + 1 ≤ stop then 2 else 0) < fuel
            by_cases h1 : s.step = stop
            · rw [if_pos h1] at hlen1
              have h2 : ¬ (s.step + 1 ≤ stop) := by omega
              rw [if_neg h2]
              have h3 : s.step ≤ stop := by omega
              rw [if_pos h3] at hm
              omega
            · rw [if_neg h1] at hlen1
              by_cases h2 : s.step + 1 ≤ stop
              · rw [if_pos h2]
                have h3 : s.step ≤ stop := by omega
                rw [if_pos h3] at hm
                omega
              · rw [if_neg h2]
                by_cases h3 : s.step ≤ stop
                · rw [if_pos h3] at hm
                  omega
                · rw [if_neg h3] at hm
                  omega
      · rw [if_neg hcond]
        simp

theorem kkOf_of_lt {pts : List Point} {k : ℤ}
    (h : max k 3 < ((CleanList pts).length : ℤ)) : kkOf pts k = max k 3 := by
  rw [kkOf]
  omega

theorem calcFuel_ne_none_of_nodup {pts : List Point} (hnd : pts.Nodup) :
    ∀ (fuel : ℕ) (k : ℤ), (pts.length : ℤ) < max k 3 + fuel → 1 ≤ fuel →
      calcFuel fuel pts k ≠ none := by
  intro fuel
  induction fuel with
  | zero =>
      intro k hb hf
      omega
  | succ fuel ih =>
      intro k hb hf h
      have hcl : CleanList pts = pts := CleanList_of_nodup hnd
      simp only [calcFuel] at h
      split at h
      · simp at h
      · rename_i hguard
        push_neg at hguard
        split at h
        · simp at h
        · split at h
          · simp at h
          · have hkk : kkOf pts k = max k 3 := by
              refine kkOf_of_lt ?_
              rw [hcl]
              exact hguard
            split at h
            · rename_i hloop
              refine hullLoop_fuel_sufficient _ _ ?_ hloop
              show (RemovePoint (CleanList pts) (firstPointOf pts)).length +
                (if (2 : ℕ) ≤ 2 + (kkOf pts k).toNat then 2 else 0) <
                (RemovePoint (CleanList pts) (firstPointOf pts)).length + 3
              rw [if_pos (by omega)]
              omega
            · rw [hkk] at h
              refine ih (max k 3 + 1) ?_ ?_ h
              · have h5 : max (max k 3 + 1) 3 = max k 3 + 1 := by omega
                rw [h5]
                omega
              · omega
            · split at h
              · simp at h
              · rw [hkk] at h
                refine ih (max k 3 + 1) ?_ ?_ h
                · have h5 : max (max k 3 + 1) 3 = max k 3 + 1 := by omega
                  rw [h5]
                  omega
                · omega

theorem kkOf_CleanList (pts : List Point) (k : ℤ) :
    kkOf (CleanList pts) k = kkOf pts k := by
  rw [kkOf, kkOf, CleanList_idem]

theorem firstPointOf_CleanList (pts : List Point) :
    firstPointOf (CleanList pts) = firstPointOf pts := by
  rw [firstPointOf, firstPointOf, CleanList_idem]

theorem calcFuel_dedup_success : ∀ (fuel : ℕ) (pts : List Point) (k : ℤ) (hull : List Point),
    calcFuel fuel (CleanList pts) k = some (some hull) →
    calcFuel fuel pts k = some (some hull) := by
  intro fuel
  induction fuel with
  | zero =>
      intro pts k hull h
      simp [calcFuel] at h
  | succ fuel ih =>
      intro pts k hull h
      simp only [calcFuel] at h ⊢
      rw [CleanList_idem, kkOf_CleanList, firstPointOf_CleanList] at h
      split at h
      · simp at h
      · rename_i hg
        push_neg at hg
        have hle : ((CleanList pts).length : ℤ) ≤ (pts.length : ℤ) := by
          exact_mod_cast CleanList_length_le pts
        rw [if_neg (by push_neg; omega)]
        split at h
        · simp at h
        · rename_i hlt
          rw [if_neg hlt]
          split at h
          · rename_i h3
            have h33 : (3 : ℤ) ≤ max k 3 := le_max_right k 3
            omega
          · rename_i h3
            rw [if_neg h3]
            split at h
            · simp at h
            · exact ih pts _ hull h
            · split at h
              · rename_i hin
                rw [if_pos hin]
                exact h
              · rename_i hin
                rw [if_neg hin]
                exact ih pts _ hull h

/-! Claim theorems. -/

/-- C1 (amended): the escalation recursion of `calculate` terminates for
every duplicate-free input list and every initial `k`: each retry
strictly increases the clamped neighbour count, and an attempt requires
`max(k, 3)` to be smaller than the length of the raw input list, so fuel
`pointsList.length + 1` always yields a definitive answer (a hull or the
failure signal, never fuel exhaustion).  As stated, the claim is false:
the entry check compares `k` with the raw list length and not with the
number of distinct points, so `k` reaching `|PointSet|` does not make
the computation fail outright on inputs with duplicates (see the
counterexample). -/
theorem C1_escalation_terminates_on_nodup (pts : List Point) (k : ℤ) (hnd : pts.Nodup) :
    calcFuel (pts.length + 1) pts k ≠ none := by
  refine calcFuel_ne_none_of_nodup hnd _ k ?_ ?_
  · have h3 : (3 : ℤ) ≤ max k 3 := le_max_right k 3
    push_cast
    omega
  · omega

/-- C1 counterexample: on the input `dupFivePts` (five distinct points
plus one exact duplicate) with `k = 5` equal to the number of distinct
points, `calculate` does not fail outright: it computes a hull in a
single attempt, because the entry check compares `k` with the raw length
`6`, refuting the claim that the computation fails once `k` reaches the
distinct-point count. -/
theorem C1_counterexample_k_at_distinct_count_succeeds :
    (CleanList dupFivePts).length = 5 ∧
    calcFuel 1 dupFivePts 5 = some (some [(8, 8), (4, 1), (0, 4), (0, 6), (1, 6)]) := by
  with_unfolding_all decide

/-- C1 witness: the termination theorem applied to the concrete
duplicate-free four-point list. -/
theorem C1_witness : fourPts.Nodup ∧ calcFuel (fourPts.length + 1) fourPts 3 ≠ none :=
  ⟨by with_unfolding_all decide,
    C1_escalation_terminates_on_nodup fourPts 3 (by with_unfolding_all decide)⟩

/-- C2 (amended): for every input list and every `k`, if the effective
neighbour count `max(k, 3)` is at least the length of the raw input list
(not the deduplicated count), `calculate` returns the failure signal
immediately, without attempting any hull computation; the same check
guards every escalated retry, which re-enters `calculate`. -/
theorem C2_immediate_failure_at_raw_length (pts : List Point) (k : ℤ) (fuel : ℕ)
    (hf : 1 ≤ fuel) (hk : (pts.length : ℤ) ≤ max k 3) :
    calcFuel fuel pts k = some none := by
  cases fuel with
  | zero => omega
  | succ fuel =>
      simp only [calcFuel]
      rw [if_pos hk]

/-- C2 counterexample: on `triangleDupPts` the effective neighbour count
`max(3, 3) = 3` equals the number of distinct points `3`, yet
`calculate` does not fail: it returns the three distinct points, because
the guard compares against the raw length `4`. -/
theorem C2_counterexample_no_failure_at_distinct_count :
    (CleanList triangleDupPts).length = 3 ∧ (3 : ℤ) ≤ max 3 3 ∧
    calcFuel 1 triangleDupPts 3 = some (some [(0, 0), (1, 0), (0, 1)]) := by
  with_unfolding_all decide

/-- C2 witness: the immediate-failure theorem applied to a concrete
one-point list with `k = 0`. -/
theorem C2_witness : (1 ≤ 1) ∧ ((([((0 : ℚ), (0 : ℚ))] : List Point).length : ℤ) ≤ max 0 3) ∧
    calcFuel 1 [((0 : ℚ), (0 : ℚ))] 0 = some none :=
  ⟨le_refl 1, by with_unfolding_all decide,
    C2_immediate_failure_at_raw_length [((0 : ℚ), (0 : ℚ))] 0 1 (le_refl 1)
      (by with_unfolding_all decide)⟩

/-- C3 (code bug): the spec's scenario C requires
`calculate([(0,0), (1,0), (0,1)], 3)` to return those three points, and
the source's own comment on the three-point branch says "For a 3 points
dataset, the polygon is the dataset itself"; but the entry guard
(`kk >= pointsList.length`, commented "Not in algorithm") fires first on
any duplicate-free list of exactly three points, because
`max(k, 3) ≥ 3 = pointsList.length` always holds, so the code returns
the failure signal instead.  This theorem evaluates the code at the
failing input. -/
theorem C3_three_distinct_points_return_null :
    (CleanList trianglePts).length = 3 ∧ calcFuel 1 trianglePts 3 = some none := by
  with_unfolding_all decide

/-- C4 counterexample: deduplication invariance fails.  On
`triangleDupPts`, `calculate(points, 3)` returns the three distinct
points while `calculate(dedupe(points), 3)` returns the failure signal,
because the entry guard compares `k` against the raw list length, which
deduplication shrinks from `4` to `3`. -/
theorem C4_counterexample_dedup_changes_result :
    calcFuel 1 triangleDupPts 3 = some (some [(0, 0), (1, 0), (0, 1)]) ∧
    calcFuel 1 (CleanList triangleDupPts) 3 = some none ∧
    calcFuel 1 triangleDupPts 3 ≠ calcFuel 1 (CleanList triangleDupPts) 3 := by
  with_unfolding_all decide

/-- C4 (amended): duplicate input points never affect a successful
output: whenever `calculate(dedupe(points), k)` computes a hull (with a
given retry budget), `calculate(points, k)` computes the same hull with
the same budget.  Only failure results can differ, through the raw-length
entry guard. -/
theorem C4_dedup_invariance_on_success (fuel : ℕ) (pts : List Point) (k : ℤ)
    (hull : List Point)
    (h : calcFuel fuel (CleanList pts) k = some (some hull)) :
    calcFuel fuel pts k = some (some hull) :=
  calcFuel_dedup_success fuel pts k hull h

/-- C4 witness: the transfer theorem applied to the concrete input
`fourDupPts`, whose deduplicated run computes an open four-point hull. -/
theorem C4_witness :
    calcFuel 1 (CleanList fourDupPts) 3 = some (some [(5, 4), (3, 1), (0, 0), (1, 3)]) ∧
    calcFuel 1 fourDupPts 3 = some (some [(5, 4), (3, 1), (0, 0), (1, 3)]) :=
  ⟨by with_unfolding_all decide,
    C4_dedup_invariance_on_success 1 fourDupPts 3 _ (by with_unfolding_all decide)⟩

/-- C5 (amended): for every input with at least 4 distinct points, a
non-failure result of `calculate` draws all its elements from the
deduplicated input and its elements other than the last are pairwise
distinct; its first and last elements are value-equal (closed polygon)
unless the working set was exhausted before the polygon could close, in
which case the result is a duplicate-free enumeration containing every
distinct input point.  As stated, the claim is false: the closing repeat
is not guaranteed (see the counterexample, where four collinear-free
points are exhausted before the seed is re-inserted). -/
theorem C5_success_shape (pts : List Point) (k : ℤ) (fuel : ℕ) (hull : List Point)
    (h4 : 4 ≤ (CleanList pts).length)
    (h : calcFuel fuel pts k = some (some hull)) :
    (∀ p ∈ hull, p ∈ CleanList pts) ∧ hull.dropLast.Nodup ∧
      (hull.head? = hull.getLast? ∨
        ((∀ p ∈ CleanList pts, p ∈ hull) ∧ hull.Nodup)) := by
  obtain ⟨ds, post, _⟩ := calcFuel_success fuel pts k hull h4 h
  refine ⟨post.hull_sub, post.dl_nodup, ?_⟩
  by_cases hcl : hull.getLast? = some (firstPointOf pts)
  · left
    rw [post.head_first, hcl]
  · right
    rcases post.closed_or_exhausted with hc | hds
    · exact absurd hc hcl
    · refine ⟨?_, post.open_nodup hcl⟩
      intro p hp
      rcases post.cover p hp with hmem | hmem
      · rw [hds] at hmem
        simp at hmem
      · exact hmem

/-- C5 counterexample: the four distinct points `fourPts` produce a
non-failure result whose first and last elements differ (no closing
repeat): the working set is exhausted before the seed point is
re-inserted as a closing candidate. -/
theorem C5_counterexample_open_hull :
    4 ≤ (CleanList fourPts).length ∧
    calcFuel 1 fourPts 3 = some (some [(5, 4), (3, 1), (0, 0), (1, 3)]) ∧
    ([(5, 4), (3, 1), (0, 0), (1, 3)] : List Point).head? ≠
      ([(5, 4), (3, 1), (0, 0), (1, 3)] : List Point).getLast? := by
  with_unfolding_all decide

/-- C5 witness: the success-shape theorem applied to `pentagonPts`,
whose hull closes on the seed point. -/
theorem C5_witness :
    (∀ p ∈ ([(7, 6), (3, 0), (0, 3), (6, 6), (7, 6)] : List Point),
        p ∈ CleanList pentagonPts) ∧
      ([(7, 6), (3, 0), (0, 3), (6, 6), (7, 6)] : List Point).dropLast.Nodup ∧
      (([(7, 6), (3, 0), (0, 3), (6, 6), (7, 6)] : List Point).head? =
          ([(7, 6), (3, 0), (0, 3), (6, 6), (7, 6)] : List Point).getLast? ∨
        ((∀ p ∈ CleanList pentagonPts,
            p ∈ ([(7, 6), (3, 0), (0, 3), (6, 6), (7, 6)] : List Point)) ∧
          ([(7, 6), (3, 0), (0, 3), (6, 6), (7, 6)] : List Point).Nodup)) :=
  C5_success_shape pentagonPts 3 1 _ (by with_unfolding_all decide)
    (by with_unfolding_all decide)

/-- C6: for every input with at least 4 distinct points, whenever
`calculate` returns a non-failure hull, every deduplicated input point
that does not appear as a hull vertex satisfies the point-in-polygon
test on the returned polygon: this is exactly the post-loop validation,
and any attempt with a leftover point testing outside is retried with
`k + 1` instead of being returned. -/
theorem C6_leftover_points_inside (pts : List Point) (k : ℤ) (fuel : ℕ)
    (hull : List Point)
    (h4 : 4 ≤ (CleanList pts).length)
    (h : calcFuel fuel pts k = some (some hull)) :
    ∀ p ∈ CleanList pts, p ∉ hull → PointInPolygonQ p hull = true := by
  obtain ⟨ds, post, hall⟩ := calcFuel_success fuel pts k hull h4 h
  intro p hp hnot
  rcases post.cover p hp with hmem | hmem
  · rw [allInside, List.all_eq_true] at hall
    simpa using hall p hmem
  · exact absurd hmem hnot

/-- C6 witness: the theorem applied to `pentagonPts`, whose hull leaves
the interior point `(1, 3)` in the working set; the point passes the
ray-casting test on the closed hull. -/
theorem C6_witness :
    PointInPolygonQ (1, 3) [(7, 6), (3, 0), (0, 3), (6, 6), (7, 6)] = true :=
  C6_leftover_points_inside pentagonPts 3 1
    [(7, 6), (3, 0), (0, 3), (6, 6), (7, 6)]
    (by with_unfolding_all decide) (by with_unfolding_all decide)
    (1, 3) (by with_unfolding_all decide) (by with_unfolding_all decide)

/-- C7 (amended): for every input with at least 4 distinct points,
whenever `calculate` returns a non-failure hull, every pair of edges at
distance at least two — excluding the cyclically adjacent pair of edge
`0` with a closing edge ending on the first vertex — reports no
intersection when `segmentsIntersect` is applied in the orientation the
algorithm checks, with the later edge as the first argument.  As
stated (both argument orders), the claim is false: the parametric test
is inclusive of segment endpoints in one orientation and exclusive in
the other, so a hull whose closing edge passes exactly through an
earlier vertex survives the construction checks yet reports an
intersection in the reverse orientation (see the counterexample). -/
theorem C7_nonadjacent_edges_no_intersection (pts : List Point) (k : ℤ)
    (fuel : ℕ) (hull : List Point)
    (h4 : 4 ≤ (CleanList pts).length)
    (h : calcFuel fuel pts k = some (some hull)) :
    ∀ m n : ℕ, m + 2 ≤ n → n + 1 < hull.length →
      (m ≠ 0 ∨ hull.getD (n + 1) (0, 0) ≠ hull.getD 0 (0, 0)) →
      IntersectsQ (hullEdge hull n) (hullEdge hull m) = false := by
  obtain ⟨ds, post, _⟩ := calcFuel_success fuel pts k hull h4 h
  intro m n hmn hn hcond
  have hhead : hull.getD 0 (0, 0) = firstPointOf pts := by
    cases hl : hull with
    | nil =>
        have := post.head_first
        rw [hl] at this
        simp at this
    | cons a t =>
        have h2 := post.head_first
        rw [hl] at h2
        simp only [List.head?_cons, Option.some.injEq] at h2
        rw [List.getD, h2]
        rfl
  refine post.simple m n hmn hn ?_
  rw [← hhead]
  exact hcond

/-- C7 counterexample: on `touchPts` the computed hull is closed and its
closing edge (edge `4`) passes exactly through the non-adjacent hull
vertex `(1, 3)`; applying `IntersectsQ` to the non-adjacent pair of
edges `1` and `4` with the earlier edge as first argument reports an
intersection, refuting the claim for arbitrary argument order. -/
theorem C7_counterexample_touching_pair_intersects :
    calcFuel 1 touchPts 3 =
      some (some [(0, 4), (1, 3), (6, 0), (4, 0), (3, 1), (0, 4)]) ∧
    4 ≤ (CleanList touchPts).length ∧
    1 + 2 ≤ 4 ∧
    4 + 1 < ([(0, 4), (1, 3), (6, 0), (4, 0), (3, 1), (0, 4)] : List Point).length ∧
    IntersectsQ (hullEdge [(0, 4), (1, 3), (6, 0), (4, 0), (3, 1), (0, 4)] 1)
      (hullEdge [(0, 4), (1, 3), (6, 0), (4, 0), (3, 1), (0, 4)] 4) = true := by
  with_unfolding_all decide

/-- C7 witness: the theorem applied to the closed hull of `pentagonPts`
at the non-adjacent pair of edges `2` and `0`. -/
theorem C7_witness :
    IntersectsQ (hullEdge [(7, 6), (3, 0), (0, 3), (6, 6), (7, 6)] 2)
      (hullEdge [(7, 6), (3, 0), (0, 3), (6, 6), (7, 6)] 0) = false :=
  C7_nonadjacent_edges_no_intersection pentagonPts 3 1
    [(7, 6), (3, 0), (0, 3), (6, 6), (7, 6)]
    (by with_unfolding_all decide) (by with_unfolding_all decide)
    0 2 (by omega) (by with_unfolding_all decide) (by with_unfolding_all decide)

/-- C8: for every pair of finite segments whose direction vectors are
parallel — the cross product of the two directions is exactly zero,
including collinear and overlapping segments — the intersection test
reports no intersection: the `denom === 0` branch of
`getLineLineCollision` fires before any other test. -/
theorem C8_parallel_segments_report_false (lineA lineB : Point × Point)
    (h : (lineA.2.1 - lineA.1.1) * (lineB.2.2 - lineB.1.2) -
        (lineB.2.1 - lineB.1.1) * (lineA.2.2 - lineA.1.2) = 0) :
    IntersectsQ lineA lineB = false := by
  simp only [IntersectsQ, getLineLineCollision]
  rw [if_pos h]
  rfl

/-- C8 witness: the theorem applied to two exactly collinear,
overlapping horizontal segments. -/
theorem C8_witness :
    ((2 : ℚ) - 0) * ((0 : ℚ) - 0) - ((3 : ℚ) - 1) * ((0 : ℚ) - 0) = 0 ∧
    IntersectsQ (((0 : ℚ), (0 : ℚ)), ((2 : ℚ), (0 : ℚ)))
      (((1 : ℚ), (0 : ℚ)), ((3 : ℚ), (0 : ℚ))) = false :=
  ⟨by with_unfolding_all decide,
    C8_parallel_segments_report_false
      (((0 : ℚ), (0 : ℚ)), ((2 : ℚ), (0 : ℚ)))
      (((1 : ℚ), (0 : ℚ)), ((3 : ℚ), (0 : ℚ)))
      (by with_unfolding_all decide)⟩

/-- C9: for every pair of points, `Angle(a, b)` lies in the half-open
interval `[0, 2*pi)` and equals `pi` minus the `atan2` angle of the
directed segment from `a` to `b` (the argument of the corresponding
complex number); since `atan2` ranges over `(-pi, pi]`, the difference
is already in range and the normalisation branch never fires. -/
theorem C9_angle_range (a b : Point) :
    Angle a b =
      Real.pi - Complex.arg ⟨((b.1 - a.1 : ℚ) : ℝ), ((b.2 - a.2 : ℚ) : ℝ)⟩ ∧
    0 ≤ Angle a b ∧ Angle a b < 2 * Real.pi := by
  have h1 := Complex.arg_le_pi (⟨((b.1 - a.1 : ℚ) : ℝ), ((b.2 - a.2 : ℚ) : ℝ)⟩ : ℂ)
  have h2 := Complex.neg_pi_lt_arg (⟨((b.1 - a.1 : ℚ) : ℝ), ((b.2 - a.2 : ℚ) : ℝ)⟩ : ℂ)
  simp only [Angle]
  rw [if_neg (by linarith)]
  exact ⟨rfl, by linarith, by linarith⟩

end ConcaveHull
